import Mathlib

/-
Shallow embedding of the software-modem repository (src/qam.rs, src/ofdm/mod.rs,
src/ofdm/modulator.rs, src/main.rs).

Modelling conventions:
* `f32` sample and constellation values are modelled as exact rationals `ℚ`;
  the spec defines correctness "up to floating-point tolerance", which the
  exact model realises as equality.
* The Euclidean distance used by `demodulate`'s nearest-point search is
  modelled by its square (`distSq`); `sqrt` is strictly monotone on the
  non-negative reals, so minimisers and exact ties are unchanged.
* Rust panics are modelled as `Option.none` / `Except.error`.
* The FFT engine (`realfft`) is an external collaborator; the inverse and
  forward transforms are taken as function parameters.
-/

set_option maxRecDepth 100000

/-- Complex number with rational components, standing in for `Complex32`. -/
structure Cplx where
  re : ℚ
  im : ℚ
deriving DecidableEq

/-- The zero complex value (`Complex32::new(0.0, 0.0)`). -/
def zC : Cplx := ⟨0, 0⟩

/-- src/qam.rs lines 7-24: the QAM-16 lookup table, in table order. -/
def QAM16_LOOKUP : List Cplx :=
  [⟨1, 1⟩, ⟨1, 3⟩, ⟨3, 1⟩, ⟨3, 3⟩,
   ⟨1, -1⟩, ⟨1, -3⟩, ⟨3, -1⟩, ⟨3, -3⟩,
   ⟨-1, 1⟩, ⟨-1, 3⟩, ⟨-3, 1⟩, ⟨-3, 3⟩,
   ⟨-1, -1⟩, ⟨-1, -3⟩, ⟨-3, -1⟩, ⟨-3, -3⟩]

/-- src/qam.rs lines 155-157 (`distance`), modelled by its square. -/
def distSq (a b : Cplx) : ℚ := (a.re - b.re) * (a.re - b.re) + (a.im - b.im) * (a.im - b.im)

/-- Rust `Iterator::min_by`: first element of the list minimising `f`
(on a tie the earlier element is kept; `none` on the empty iterator). -/
def minByFold {α : Type} (f : α → ℚ) : List α → Option α
  | [] => none
  | x :: xs => some (xs.foldl (fun acc y => if f y < f acc then y else acc) x)

/-- src/qam.rs lines 118-130: nearest-table-entry search for one symbol,
returning the table index of the minimiser (the `min_by` over
`QAM16_LOOKUP.iter().enumerate()`). -/
def qamDecodeSymbol (s : Cplx) : Option ℕ :=
  (minByFold (fun e => distSq s e.2) QAM16_LOOKUP.enum).map (fun e => e.1)

/-- `(byte >> 4) & 0x0f` on a `u8`. -/
def hiNibble (b : ℕ) : ℕ := (b >>> 4) &&& 15

/-- `byte & 0x0f` on a `u8`. -/
def loNibble (b : ℕ) : ℕ := b &&& 15

/-- src/qam.rs lines 81-95 (`QAMModem::modulate`): per input byte, push the
lookup of the first (most significant) nibble then the second nibble. -/
def QAMModem.modulate (data : List ℕ) : List Cplx :=
  data.foldl
    (fun symbols b =>
      symbols ++ [QAM16_LOOKUP.getD (hiNibble b) zC, QAM16_LOOKUP.getD (loNibble b) zC])
    []

/-- Error taxonomy of the spec (§7); panics in the source are mapped to the
corresponding variants. -/
inductive ModemError where
  | invalidPayloadLength
  | invalidPointCount
  | symbolNotFound
  | internalError
deriving DecidableEq

/-- src/qam.rs lines 116-131: the nibble-collection loop (the `min_by` result
is `None` only on an empty table, where the code would panic with
"Symbol not found in QAM-16 lookup table"). -/
def nibblesOf (symbols : List Cplx) : Option (List ℕ) :=
  symbols.mapM qamDecodeSymbol

/-- src/qam.rs lines 133-141: `nibbles.chunks(2)` recombination; a trailing
chunk of size 1 panics ("Invalid chunk size"), modelled as
`invalidPointCount`. -/
def pairNibbles : List ℕ → Except ModemError (List ℕ)
  | [] => .ok []
  | [_] => .error .invalidPointCount
  | a :: b :: rest => (pairNibbles rest).map (fun t => ((a <<< 4) ||| b) :: t)

/-- src/qam.rs lines 113-145 (`QAMModem::demodulate`). -/
def QAMModem.demodulate (symbols : List Cplx) : Except ModemError (List ℕ) :=
  match nibblesOf symbols with
  | none => .error .symbolNotFound
  | some ns => pairNibbles ns

/-- src/qam.rs lines 148-152: bits per symbol for QAM-16. -/
def QAMModem.bits_per_symbol : ℕ := 4

/-- src/ofdm/modulator.rs line 8: the placeholder pilot value. -/
def PILOT_VALUE_TO_BE_CHANGED : Cplx := ⟨1, 0⟩

/-- src/ofdm/modulator.rs lines 160-176 (`OFDMModulatorConfig`); the QAM order
is fixed to QAM-16 and the FFT is passed separately as a function. -/
structure OFDMModulatorConfig where
  num_subcarriers : ℕ
  cyclic_prefix_length : ℕ
  pilot_subcarrier_every : ℕ

/-- src/ofdm/modulator.rs lines 178-191 (`OFDMModulatorConstants`). -/
structure OFDMModulatorConstants where
  num_data_subcarriers : ℕ
  num_pilot_subcarriers : ℕ
  num_subcarriers : ℕ
  cyclic_prefix_length : ℕ
  data_subcarrier_indices : List ℕ
  pilot_subcarrier_indices : List ℕ
  bits_per_subcarrier : ℕ
  bits_per_symbol : ℕ
deriving DecidableEq

/-- src/ofdm/modulator.rs lines 24-63 (`OFDMModulator::new`): derive the
allocation table and constants from the configuration. The source has no
failure path: construction always succeeds and this function is total. -/
def OFDMModulator.new (cfg : OFDMModulatorConfig) : OFDMModulatorConstants :=
  let pilot_subcarrier_indices : List ℕ :=
    (List.range' 1 (cfg.num_subcarriers - 1)).filter
      (fun i => i % cfg.pilot_subcarrier_every == 0)
  let data_subcarrier_indices : List ℕ :=
    (List.range' 1 (cfg.num_subcarriers - 1)).filter
      (fun i => i % cfg.pilot_subcarrier_every != 0)
  ⟨data_subcarrier_indices.length,
   pilot_subcarrier_indices.length,
   cfg.num_subcarriers,
   cfg.cyclic_prefix_length,
   data_subcarrier_indices,
   pilot_subcarrier_indices,
   QAMModem.bits_per_symbol,
   data_subcarrier_indices.length * QAMModem.bits_per_symbol⟩

/-- src/ofdm/modulator.rs lines 151-153: `2 * num_subcarriers + cyclic_prefix_length`. -/
def OFDMModulator.get_symbol_length (c : OFDMModulatorConstants) : ℕ :=
  2 * c.num_subcarriers + c.cyclic_prefix_length

/-- src/ofdm/modulator.rs lines 124-126: the loop
`for (i, idx) in data_subcarrier_indices.iter().enumerate() { input[idx] = qam_symbols[i] }`.
`none` models the index-out-of-bounds panic on `qam_symbols[i]` when the
symbol list is shorter than the index list. -/
def placeData : List Cplx → List ℕ → List Cplx → Option (List Cplx)
  | input, [], _ => some input
  | _, _ :: _, [] => none
  | input, idx :: idxs, s :: ss => placeData (input.set idx s) idxs ss

/-- src/ofdm/modulator.rs lines 128-130: write the pilot placeholder into
every pilot index. -/
def placePilots (input : List Cplx) (idxs : List ℕ) : List Cplx :=
  idxs.foldl (fun acc idx => acc.set idx PILOT_VALUE_TO_BE_CHANGED) input

/-- Rust slice expression `l[lo..hi]`; `none` models the slice-bounds panic. -/
def rsSlice (l : List ℚ) (lo hi : ℕ) : Option (List ℚ) :=
  if lo ≤ hi ∧ hi ≤ l.length then some ((l.drop lo).take (hi - lo)) else none

/-- Rust `dst[lo..hi].copy_from_slice(&src)`; `none` models the slice-bounds
panic and the `copy_from_slice` length-mismatch panic. -/
def rsSliceAssign (dst : List ℚ) (lo hi : ℕ) (src : List ℚ) : Option (List ℚ) :=
  if lo ≤ hi ∧ hi ≤ dst.length ∧ src.length = hi - lo then
    some (dst.take lo ++ src ++ dst.drop hi)
  else none

/-- src/ofdm/modulator.rs lines 122-130: the FFT input vector —
`make_input_vec()` (zero-filled, `num_subcarriers + 1` complex bins for a
transform of size `2 * num_subcarriers`), with the data symbols and pilot
values written in. -/
def OFDMModulator.fftInput (c : OFDMModulatorConstants) (qam_symbols : List Cplx) :
    Option (List Cplx) :=
  (placeData (List.replicate (c.num_subcarriers + 1) zC)
      c.data_subcarrier_indices qam_symbols).map
    (fun withData => placePilots withData c.pilot_subcarrier_indices)

/-- src/ofdm/modulator.rs lines 116-145 (`modulate_ofdm_symbol`): build the
frequency-domain input, run the inverse transform `inv`, then copy
`output[..symbol_length - cp] = transform_output` and
`output[symbol_length - cp..] = transform_output[..cp]`. -/
def OFDMModulator.modulate_ofdm_symbol (c : OFDMModulatorConstants)
    (inv : List Cplx → List ℚ) (qam_symbols : List Cplx) (output : List ℚ) :
    Option (List ℚ) :=
  match OFDMModulator.fftInput c qam_symbols with
  | none => none
  | some input =>
    let output_buffer := inv input
    let sl := OFDMModulator.get_symbol_length c
    (rsSliceAssign output 0 (sl - c.cyclic_prefix_length) output_buffer).bind
      (fun out1 =>
        (rsSlice output_buffer 0 c.cyclic_prefix_length).bind
          (fun pre => rsSliceAssign out1 (sl - c.cyclic_prefix_length) out1.length pre))

/-- src/ofdm/modulator.rs lines 101-114 (`modulate_buffer_as_symbol`): check
the payload length against `bits_per_symbol / 8` (panic modelled as
`invalidPayloadLength`), QAM-modulate, then build the OFDM symbol; any panic
inside `modulate_ofdm_symbol` is modelled as `internalError`. -/
def OFDMModulator.modulate_buffer_as_symbol (c : OFDMModulatorConstants)
    (inv : List Cplx → List ℚ) (data : List ℕ) (output : List ℚ) :
    Except ModemError (List ℚ) :=
  if data.length ≠ c.bits_per_symbol / 8 then
    .error .invalidPayloadLength
  else
    match OFDMModulator.modulate_ofdm_symbol c inv (QAMModem.modulate data) output with
    | some out => .ok out
    | none => .error .internalError

/-- Modelled from the spec: the repository declares `pub mod demodulator`
(src/ofdm/mod.rs line 8) but `src/ofdm/demodulator.rs` is not present under
src/. Following spec §4.4: (1) discard the first `cyclic_prefix_length`
samples; (2) forward-transform the remaining `2 * num_subcarriers` samples
into `num_subcarriers + 1` bins; (3) read the bins at
`data_subcarrier_indices` in ascending order; (4) pilot bins are unused;
(5) QAM-decode the point sequence into bytes. -/
def OFDMDemodulator.demodulate (c : OFDMModulatorConstants)
    (fwd : List ℚ → List Cplx) (input : List ℚ) : Except ModemError (List ℕ) :=
  let samples := input.drop c.cyclic_prefix_length
  let bins := fwd samples
  let points := c.data_subcarrier_indices.map (fun i => bins.getD i zC)
  QAMModem.demodulate points

/-! ### Generic lemmas about the `min_by` fold -/

theorem foldl_min_mem {α : Type} (f : α → ℚ) (a : α) (l : List α) :
    l.foldl (fun acc y => if f y < f acc then y else acc) a ∈ a :: l := by
  induction l generalizing a with
  | nil => simp
  | cons y ys ih =>
    simp only [List.foldl_cons, List.mem_cons]
    by_cases hya : f y < f a
    · rw [if_pos hya]
      have h := ih y
      simp only [List.mem_cons] at h
      tauto
    · rw [if_neg hya]
      have h := ih a
      simp only [List.mem_cons] at h
      tauto

theorem foldl_min_le {α : Type} (f : α → ℚ) (a : α) (l : List α) :
    ∀ x ∈ a :: l, f (l.foldl (fun acc y => if f y < f acc then y else acc) a) ≤ f x := by
  induction l generalizing a with
  | nil =>
    intro x hx
    simp only [List.mem_singleton] at hx
    simp [hx]
  | cons y ys ih =>
    intro x hx
    simp only [List.foldl_cons]
    have hstep : f (if f y < f a then y else a) ≤ f a ∧ f (if f y < f a then y else a) ≤ f y := by
      split
      · exact ⟨le_of_lt (by assumption), le_refl _⟩
      · exact ⟨le_refl _, le_of_not_lt (by assumption)⟩
    have hhead := ih (if f y < f a then y else a) _ (List.mem_cons_self _ _)
    rcases List.mem_cons.mp hx with hxa | hx'
    · rw [hxa]
      exact le_trans hhead hstep.1
    · rcases List.mem_cons.mp hx' with hxy | hx''
      · rw [hxy]
        exact le_trans hhead hstep.2
      · exact ih _ x (List.mem_cons_of_mem _ hx'')

theorem foldl_min_first {α : Type} (f : α → ℚ) (g : α → ℕ) (a : α) (l : List α)
    (hpw : (a :: l).Pairwise (fun u v => g u < g v)) :
    ∀ x ∈ a :: l, f x = f (l.foldl (fun acc y => if f y < f acc then y else acc) a) →
      g (l.foldl (fun acc y => if f y < f acc then y else acc) a) ≤ g x := by
  induction l generalizing a with
  | nil =>
    intro x hx _
    simp only [List.mem_singleton] at hx
    simp [hx]
  | cons y ys ih =>
    rcases List.pairwise_cons.mp hpw with ⟨hpw1, hpw2⟩
    rcases List.pairwise_cons.mp hpw2 with ⟨hpw3, hpw4⟩
    intro x hx hfx
    simp only [List.foldl_cons] at hfx ⊢
    by_cases hya : f y < f a
    · rw [if_pos hya] at hfx ⊢
      have ihres := ih y hpw2
      have hle := foldl_min_le f y ys
      rcases List.mem_cons.mp hx with hxa | hx'
      · exfalso
        have h1 : f (ys.foldl (fun acc y => if f y < f acc then y else acc) y) ≤ f y :=
          hle _ (List.mem_cons_self _ _)
        have h2 : f (ys.foldl (fun acc y => if f y < f acc then y else acc) y) < f a :=
          lt_of_le_of_lt h1 hya
        rw [hxa] at hfx
        rw [← hfx] at h2
        exact lt_irrefl _ h2
      · exact ihres x hx' hfx
    · rw [if_neg hya] at hfx ⊢
      have hpw' : (a :: ys).Pairwise (fun u v => g u < g v) :=
        List.pairwise_cons.mpr ⟨fun v hv => hpw1 v (List.mem_cons_of_mem _ hv), hpw4⟩
      have ihres := ih a hpw'
      have hle := foldl_min_le f a ys
      rcases List.mem_cons.mp hx with hxa | hx'
      · rw [hxa] at hfx ⊢
        exact ihres a (List.mem_cons_self _ _) hfx
      · rcases List.mem_cons.mp hx' with hxy | hx''
        · rw [hxy] at hfx ⊢
          have h1 : f (ys.foldl (fun acc y => if f y < f acc then y else acc) a) ≤ f a :=
            hle _ (List.mem_cons_self _ _)
          have hfa : f a = f (ys.foldl (fun acc y => if f y < f acc then y else acc) a) :=
            le_antisymm (le_trans (le_of_not_lt hya) (le_of_eq hfx)) h1
          have hga := ihres a (List.mem_cons_self _ _) hfa
          exact le_trans hga (le_of_lt (hpw1 y (List.mem_cons_self _ _)))
        · exact ihres x (List.mem_cons_of_mem _ hx'') hfx

theorem minByFold_mem {α : Type} {f : α → ℚ} {l : List α} {r : α}
    (h : minByFold f l = some r) : r ∈ l := by
  cases l with
  | nil => simp [minByFold] at h
  | cons x xs =>
    simp only [minByFold, Option.some.injEq] at h
    subst h
    exact foldl_min_mem f x xs

theorem minByFold_le {α : Type} {f : α → ℚ} {l : List α} {r : α}
    (h : minByFold f l = some r) : ∀ x ∈ l, f r ≤ f x := by
  cases l with
  | nil => simp [minByFold] at h
  | cons x xs =>
    simp only [minByFold, Option.some.injEq] at h
    subst h
    exact foldl_min_le f x xs

theorem minByFold_first {α : Type} {f : α → ℚ} (g : α → ℕ) {l : List α} {r : α}
    (hpw : l.Pairwise (fun u v => g u < g v)) (h : minByFold f l = some r) :
    ∀ x ∈ l, f x = f r → g r ≤ g x := by
  cases l with
  | nil => simp [minByFold] at h
  | cons x xs =>
    simp only [minByFold, Option.some.injEq] at h
    subst h
    exact foldl_min_first f g x xs hpw

/-! ### Facts about the enumerated lookup table -/

theorem qam_enum_facts :
    ∀ x ∈ QAM16_LOOKUP.enum, x.1 < 16 ∧ x.2 = QAM16_LOOKUP.getD x.1 zC := by decide

theorem qam_enum_mem : ∀ j, j < 16 → (j, QAM16_LOOKUP.getD j zC) ∈ QAM16_LOOKUP.enum := by
  decide

theorem qam_enum_pairwise : QAM16_LOOKUP.enum.Pairwise (fun u v => u.1 < v.1) := by decide

theorem qamDecodeSymbol_isSome (s : Cplx) : ∃ i, qamDecodeSymbol s = some i := by
  obtain ⟨x, xs, hx⟩ : ∃ x xs, QAM16_LOOKUP.enum = x :: xs := ⟨_, _, rfl⟩
  unfold qamDecodeSymbol
  rw [hx]
  exact ⟨_, rfl⟩

theorem nibblesOf_isSome (symbols : List Cplx) :
    ∃ ns, nibblesOf symbols = some ns ∧ ns.length = symbols.length := by
  induction symbols with
  | nil => exact ⟨[], rfl, rfl⟩
  | cons s ss ih =>
    obtain ⟨ns, hns, hlen⟩ := ih
    obtain ⟨i, hi⟩ := qamDecodeSymbol_isSome s
    refine ⟨i :: ns, ?_, by simp [hlen]⟩
    unfold nibblesOf at hns ⊢
    rw [List.mapM_cons, hi, hns]
    rfl

theorem pairNibbles_spec (ns : List ℕ) :
    (ns.length % 2 = 0 → ∃ bs, pairNibbles ns = .ok bs) ∧
    (ns.length % 2 = 1 → pairNibbles ns = .error ModemError.invalidPointCount) := by
  generalize hn : ns.length = n
  induction n using Nat.strong_induction_on generalizing ns with
  | _ n ih =>
    match ns, hn with
    | [], rfl => exact ⟨fun _ => ⟨[], rfl⟩, by simp⟩
    | [a], rfl => exact ⟨by simp, fun _ => rfl⟩
    | a :: b :: rest, rfl =>
      have hlt : rest.length < (a :: b :: rest).length := by
        simp only [List.length_cons]
        omega
      obtain ⟨h0, h1⟩ := ih rest.length hlt rest rfl
      constructor
      · intro h
        have hrest : rest.length % 2 = 0 := by
          simp only [List.length_cons] at h
          omega
        obtain ⟨bs, hbs⟩ := h0 hrest
        exact ⟨((a <<< 4) ||| b) :: bs, by simp [pairNibbles, hbs, Except.map]⟩
      · intro h
        have hrest : rest.length % 2 = 1 := by
          simp only [List.length_cons] at h
          omega
        simp [pairNibbles, h1 hrest, Except.map]

/-- C10: the nearest-entry search in `QAMModem::demodulate` always succeeds —
the table has 16 entries, so for every received point (all distances are
comparable in the exact model) the minimiser exists with a table index below
16, and the "Symbol not found in QAM-16 lookup table" panic branch is
unreachable for every input sequence. -/
theorem claim_C10_decode_total :
    (∀ s : Cplx, ∃ i, qamDecodeSymbol s = some i ∧ i < 16) ∧
    (∀ symbols : List Cplx,
      QAMModem.demodulate symbols ≠ Except.error ModemError.symbolNotFound) := by
  constructor
  · intro s
    obtain ⟨i, hi⟩ := qamDecodeSymbol_isSome s
    refine ⟨i, hi, ?_⟩
    unfold qamDecodeSymbol at hi
    obtain ⟨r, hr, hri⟩ := Option.map_eq_some'.mp hi
    have := (qam_enum_facts r (minByFold_mem hr)).1
    omega
  · intro symbols
    obtain ⟨ns, hns, _⟩ := nibblesOf_isSome symbols
    unfold QAMModem.demodulate
    rw [hns]
    obtain ⟨h0, h1⟩ := pairNibbles_spec ns
    rcases Nat.mod_two_eq_zero_or_one ns.length with h | h
    · obtain ⟨bs, hbs⟩ := h0 h
      simp [hbs]
    · simp [h1 h]

/-- C6: the minimum-distance search resolves exact ties to the lowest table
index: whenever decoding yields index `i`, the entry at `i` is at minimal
(squared) distance from the input, and any other index at the same distance
is at least `i`. -/
theorem claim_C6_tie_break (s : Cplx) (i : ℕ) (h : qamDecodeSymbol s = some i) :
    (∀ j, j < 16 → distSq s (QAM16_LOOKUP.getD i zC) ≤ distSq s (QAM16_LOOKUP.getD j zC)) ∧
    (∀ j, j < 16 →
      distSq s (QAM16_LOOKUP.getD j zC) = distSq s (QAM16_LOOKUP.getD i zC) → i ≤ j) := by
  unfold qamDecodeSymbol at h
  obtain ⟨r, hr, hri⟩ := Option.map_eq_some'.mp h
  have hmem := minByFold_mem hr
  have hfacts := qam_enum_facts r hmem
  have hfr : distSq s r.2 = distSq s (QAM16_LOOKUP.getD i zC) := by rw [hfacts.2, hri]
  constructor
  · intro j hj
    have hle := minByFold_le hr _ (qam_enum_mem j hj)
    simp only at hle
    rw [hfr] at hle
    exact hle
  · intro j hj heq
    have hfirst := minByFold_first (fun e => e.1) qam_enum_pairwise hr _ (qam_enum_mem j hj)
      (by simp only; rw [heq, ← hfr])
    simp only at hfirst
    rw [hri] at hfirst
    exact hfirst

/-- Witness for C6 at the all-zero point, exactly equidistant from the four
innermost constellation points; decoding returns index 0, the lowest. -/
theorem claim_C6_witness :
    qamDecodeSymbol ⟨0, 0⟩ = some 0 ∧
      distSq ⟨0, 0⟩ (QAM16_LOOKUP.getD 0 zC) ≤ distSq ⟨0, 0⟩ (QAM16_LOOKUP.getD 4 zC) ∧
      (distSq ⟨0, 0⟩ (QAM16_LOOKUP.getD 4 zC) = distSq ⟨0, 0⟩ (QAM16_LOOKUP.getD 0 zC) →
        0 ≤ 4) :=
  ⟨by with_unfolding_all decide,
    (claim_C6_tie_break ⟨0, 0⟩ 0 (by with_unfolding_all decide)).1 4 (by decide),
    fun h => (claim_C6_tie_break ⟨0, 0⟩ 0 (by with_unfolding_all decide)).2 4 (by decide) h⟩

/-- C9: an odd number of constellation points makes `QAMModem::demodulate`
fail with the invalid-point-count error (the "Invalid chunk size" panic); an
even number never produces that error and yields bytes. -/
theorem claim_C9_odd_points (symbols : List Cplx) :
    (symbols.length % 2 = 1 →
      QAMModem.demodulate symbols = Except.error ModemError.invalidPointCount) ∧
    (symbols.length % 2 = 0 → ∃ bs, QAMModem.demodulate symbols = Except.ok bs) := by
  obtain ⟨ns, hns, hlen⟩ := nibblesOf_isSome symbols
  obtain ⟨h0, h1⟩ := pairNibbles_spec ns
  unfold QAMModem.demodulate
  rw [hns]
  constructor
  · intro h
    exact h1 (hlen ▸ h)
  · intro h
    exact h0 (hlen ▸ h)

/-- Witness for C9: a single point fails with the invalid-point-count error;
an empty point list decodes. -/
theorem claim_C9_witness :
    [zC].length % 2 = 1 ∧
      QAMModem.demodulate [zC] = Except.error ModemError.invalidPointCount ∧
      ∃ bs, QAMModem.demodulate [] = Except.ok bs :=
  ⟨by decide, (claim_C9_odd_points [zC]).1 (by decide),
    (claim_C9_odd_points []).2 (by decide)⟩

/-! ### QAM encode/decode round trip -/

theorem hiNibble_lt (b : ℕ) : hiNibble b < 16 :=
  Nat.lt_succ_of_le (Nat.and_le_right)

theorem loNibble_lt (b : ℕ) : loNibble b < 16 :=
  Nat.lt_succ_of_le (Nat.and_le_right)

theorem qam_modulate_bind (data : List ℕ) :
    QAMModem.modulate data =
      data.flatMap (fun b =>
        [QAM16_LOOKUP.getD (hiNibble b) zC, QAM16_LOOKUP.getD (loNibble b) zC]) := by
  have haux : ∀ (l : List ℕ) (acc : List Cplx),
      l.foldl
        (fun symbols b =>
          symbols ++ [QAM16_LOOKUP.getD (hiNibble b) zC, QAM16_LOOKUP.getD (loNibble b) zC])
        acc =
      acc ++ l.flatMap (fun b =>
        [QAM16_LOOKUP.getD (hiNibble b) zC, QAM16_LOOKUP.getD (loNibble b) zC]) := by
    intro l
    induction l with
    | nil => simp
    | cons b bs ih =>
      intro acc
      simp only [List.foldl_cons, List.flatMap_cons, ih, List.append_assoc]
  exact haux data []

theorem decode_encode : ∀ n, n < 16 → qamDecodeSymbol (QAM16_LOOKUP.getD n zC) = some n := by
  with_unfolding_all decide

theorem nibble_recombine : ∀ b, b < 256 → ((hiNibble b) <<< 4) ||| (loNibble b) = b := by
  decide

theorem nibblesOf_modulate (data : List ℕ) :
    nibblesOf (QAMModem.modulate data) =
      some (data.flatMap (fun b => [hiNibble b, loNibble b])) := by
  rw [qam_modulate_bind]
  induction data with
  | nil => rfl
  | cons b bs ih =>
    simp only [List.flatMap_cons]
    unfold nibblesOf at ih ⊢
    rw [List.cons_append, List.cons_append, List.nil_append,
      List.mapM_cons, List.mapM_cons,
      decode_encode (hiNibble b) (hiNibble_lt b),
      decode_encode (loNibble b) (loNibble_lt b), ih]
    rfl

theorem pairNibbles_nibbles (data : List ℕ) (h : ∀ b ∈ data, b < 256) :
    pairNibbles (data.flatMap (fun b => [hiNibble b, loNibble b])) = .ok data := by
  induction data with
  | nil => rfl
  | cons b bs ih =>
    have hb := h b (List.mem_cons_self _ _)
    simp only [List.flatMap_cons, List.cons_append, List.nil_append]
    show pairNibbles (hiNibble b :: loNibble b :: _) = _
    simp only [pairNibbles]
    rw [ih (fun x hx => h x (List.mem_cons_of_mem _ hx))]
    simp [Except.map, nibble_recombine b hb]

theorem qam_roundtrip (data : List ℕ) (h : ∀ b ∈ data, b < 256) :
    QAMModem.demodulate (QAMModem.modulate data) = Except.ok data := by
  unfold QAMModem.demodulate
  rw [nibblesOf_modulate]
  exact pairNibbles_nibbles data h

/-- C5: the constellation mapping is a bijection on its indices — decoding the
encoded point of any 4-bit value returns that value, and consequently the
byte-level round trip `demodulate(modulate(bytes)) == bytes` holds for every
byte sequence. -/
theorem claim_C5_constellation_bijection :
    (∀ n, n < 16 → qamDecodeSymbol (QAM16_LOOKUP.getD n zC) = some n) ∧
    (∀ data : List ℕ, (∀ b ∈ data, b < 256) →
      QAMModem.demodulate (QAMModem.modulate data) = Except.ok data) :=
  ⟨decode_encode, qam_roundtrip⟩

/-- Witness for C5 at nibble 5 and at the byte string "Hi". -/
theorem claim_C5_witness :
    qamDecodeSymbol (QAM16_LOOKUP.getD 5 zC) = some 5 ∧
      QAMModem.demodulate (QAMModem.modulate [72, 105]) = Except.ok [72, 105] :=
  ⟨claim_C5_constellation_bijection.1 5 (by decide),
   claim_C5_constellation_bijection.2 [72, 105] (by decide)⟩

/-- C8: batch encoding emits exactly two constellation points per input byte,
the point of the most-significant nibble first, each by pure table lookup —
`QAMModem::modulate` is a total function with no error path. -/
theorem claim_C8_two_points_per_byte (data : List ℕ) :
    (QAMModem.modulate data).length = 2 * data.length ∧
    QAMModem.modulate data =
      data.flatMap (fun b =>
        [QAM16_LOOKUP.getD (hiNibble b) zC, QAM16_LOOKUP.getD (loNibble b) zC]) := by
  refine ⟨?_, qam_modulate_bind data⟩
  rw [qam_modulate_bind]
  induction data with
  | nil => rfl
  | cons b bs ih =>
    simp only [List.flatMap_cons, List.length_append, List.length_cons, ih]
    simp only [List.length_append] at ih
    simp [List.flatMap_cons, ih]
    omega

/-! ### Subcarrier allocation table -/

theorem mem_data_iff (cfg : OFDMModulatorConfig) (i : ℕ) :
    i ∈ (OFDMModulator.new cfg).data_subcarrier_indices ↔
      1 ≤ i ∧ i < cfg.num_subcarriers ∧ ¬ i % cfg.pilot_subcarrier_every = 0 := by
  show i ∈ (List.range' 1 (cfg.num_subcarriers - 1)).filter
      (fun i => i % cfg.pilot_subcarrier_every != 0) ↔ _
  rw [List.mem_filter, List.mem_range'_1]
  constructor
  · rintro ⟨⟨h1, h2⟩, h3⟩
    exact ⟨h1, by omega, by simpa using h3⟩
  · rintro ⟨h1, h2, h3⟩
    exact ⟨⟨h1, by omega⟩, by simpa using h3⟩

theorem mem_pilot_iff (cfg : OFDMModulatorConfig) (i : ℕ) :
    i ∈ (OFDMModulator.new cfg).pilot_subcarrier_indices ↔
      1 ≤ i ∧ i < cfg.num_subcarriers ∧ i % cfg.pilot_subcarrier_every = 0 := by
  show i ∈ (List.range' 1 (cfg.num_subcarriers - 1)).filter
      (fun i => i % cfg.pilot_subcarrier_every == 0) ↔ _
  rw [List.mem_filter, List.mem_range'_1]
  constructor
  · rintro ⟨⟨h1, h2⟩, h3⟩
    exact ⟨h1, by omega, by simpa using h3⟩
  · rintro ⟨h1, h2, h3⟩
    exact ⟨⟨h1, by omega⟩, by simpa using h3⟩

/-- C3: the derived allocation table is strictly ascending in both index
lists, the two lists are disjoint and lie inside `[1, num_subcarriers)`,
together with `{0, num_subcarriers}` they cover all of
`[0, num_subcarriers]`, and an in-range index is a pilot exactly when it is
a multiple of `pilot_subcarrier_every`, and a data index otherwise. -/
theorem claim_C3_allocation_partition (cfg : OFDMModulatorConfig)
    (hn : 4 ≤ cfg.num_subcarriers) (hp : 2 ≤ cfg.pilot_subcarrier_every) :
    ((OFDMModulator.new cfg).data_subcarrier_indices.Pairwise (· < ·)) ∧
    ((OFDMModulator.new cfg).pilot_subcarrier_indices.Pairwise (· < ·)) ∧
    (∀ i, ¬(i ∈ (OFDMModulator.new cfg).data_subcarrier_indices ∧
            i ∈ (OFDMModulator.new cfg).pilot_subcarrier_indices)) ∧
    (∀ i, i ∈ (OFDMModulator.new cfg).data_subcarrier_indices →
       1 ≤ i ∧ i < cfg.num_subcarriers) ∧
    (∀ i, i ∈ (OFDMModulator.new cfg).pilot_subcarrier_indices →
       1 ≤ i ∧ i < cfg.num_subcarriers) ∧
    (∀ i, i ≤ cfg.num_subcarriers →
       i ∈ (OFDMModulator.new cfg).data_subcarrier_indices ∨
       i ∈ (OFDMModulator.new cfg).pilot_subcarrier_indices ∨
       i = 0 ∨ i = cfg.num_subcarriers) ∧
    (∀ i, 1 ≤ i → i < cfg.num_subcarriers →
       ((i ∈ (OFDMModulator.new cfg).pilot_subcarrier_indices ↔
          i % cfg.pilot_subcarrier_every = 0) ∧
        (i ∈ (OFDMModulator.new cfg).data_subcarrier_indices ↔
          ¬ i % cfg.pilot_subcarrier_every = 0))) := by
  refine ⟨?_, ?_, ?_, ?_, ?_, ?_, ?_⟩
  · exact List.Pairwise.filter _ (List.pairwise_lt_range' 1 (cfg.num_subcarriers - 1))
  · exact List.Pairwise.filter _ (List.pairwise_lt_range' 1 (cfg.num_subcarriers - 1))
  · intro i ⟨hd, hpi⟩
    rw [mem_data_iff] at hd
    rw [mem_pilot_iff] at hpi
    exact hd.2.2 hpi.2.2
  · intro i hd
    rw [mem_data_iff] at hd
    exact ⟨hd.1, hd.2.1⟩
  · intro i hpi
    rw [mem_pilot_iff] at hpi
    exact ⟨hpi.1, hpi.2.1⟩
  · intro i hi
    by_cases h0 : i = 0
    · exact Or.inr (Or.inr (Or.inl h0))
    · by_cases hN : i = cfg.num_subcarriers
      · exact Or.inr (Or.inr (Or.inr hN))
      · by_cases hm : i % cfg.pilot_subcarrier_every = 0
        · exact Or.inr (Or.inl ((mem_pilot_iff cfg i).mpr ⟨by omega, by omega, hm⟩))
        · exact Or.inl ((mem_data_iff cfg i).mpr ⟨by omega, by omega, hm⟩)
  · intro i h1 h2
    constructor
    · rw [mem_pilot_iff]
      constructor
      · exact fun h => h.2.2
      · exact fun h => ⟨h1, h2, h⟩
    · rw [mem_data_iff]
      constructor
      · exact fun h => h.2.2
      · exact fun h => ⟨h1, h2, h⟩

/-- Witness for C3 at `num_subcarriers = 8`, `pilot_subcarrier_every = 2`. -/
theorem claim_C3_witness :
    4 ≤ (8 : ℕ) ∧ 2 ≤ (2 : ℕ) ∧
      (OFDMModulator.new ⟨8, 0, 2⟩).data_subcarrier_indices.Pairwise (· < ·) ∧
      (2 ∈ (OFDMModulator.new ⟨8, 0, 2⟩).pilot_subcarrier_indices ↔ 2 % 2 = 0) :=
  ⟨by decide, by decide,
    (claim_C3_allocation_partition ⟨8, 0, 2⟩ (by decide) (by decide)).1,
    ((claim_C3_allocation_partition ⟨8, 0, 2⟩ (by decide) (by decide)).2.2.2.2.2.2
      2 (by decide) (by decide)).1⟩

instance {ε α : Type} [DecidableEq ε] [DecidableEq α] : DecidableEq (Except ε α) :=
  fun x y =>
    match x, y with
    | .ok a, .ok b =>
      if h : a = b then .isTrue (h ▸ rfl) else .isFalse (fun hc => h (by injection hc))
    | .error e, .error f =>
      if h : e = f then .isTrue (h ▸ rfl) else .isFalse (fun hc => h (by injection hc))
    | .ok _, .error _ => .isFalse (fun hc => Except.noConfusion hc)
    | .error _, .ok _ => .isFalse (fun hc => Except.noConfusion hc)

/-! ### Payload-length precondition and capacity -/

theorem modulate_invalid_iff (c : OFDMModulatorConstants) (inv : List Cplx → List ℚ)
    (data : List ℕ) (output : List ℚ) :
    (OFDMModulator.modulate_buffer_as_symbol c inv data output =
        Except.error ModemError.invalidPayloadLength) ↔
      data.length ≠ c.bits_per_symbol / 8 := by
  unfold OFDMModulator.modulate_buffer_as_symbol
  by_cases h : data.length = c.bits_per_symbol / 8
  · rw [if_neg (fun hc => hc h)]
    cases hm : OFDMModulator.modulate_ofdm_symbol c inv (QAMModem.modulate data) output with
    | some out => simp [h]
    | none => simp [h]
  · rw [if_pos h]
    simp [h]

/-- C7: `modulate_buffer_as_symbol` fails with the invalid-payload-length
error exactly when the payload length differs from `bits_per_symbol / 8`
(one byte short, one byte over, or any other mismatch) — it never silently
truncates or pads, and a correct-length payload never triggers that error. -/
theorem claim_C7_payload_length_check (cfg : OFDMModulatorConfig)
    (inv : List Cplx → List ℚ) (data : List ℕ) (output : List ℚ) :
    (OFDMModulator.modulate_buffer_as_symbol (OFDMModulator.new cfg) inv data output =
        Except.error ModemError.invalidPayloadLength) ↔
      data.length ≠ (OFDMModulator.new cfg).bits_per_symbol / 8 :=
  modulate_invalid_iff (OFDMModulator.new cfg) inv data output

/-- Counterexample for C4: the configuration `num_subcarriers = 6`,
`pilot_subcarrier_every = 2` (valid per the spec: `n ≥ 4`, even, `p ≥ 2`) has
3 data subcarriers, i.e. 12 payload bits — not a multiple of 8. The claim
says construction must reject it, but `OFDMModulator::new` in the source has
no failure path at all: the (total) embedding produces constants with the
truncated capacity `12 / 8 = 1` byte. A 1-byte payload then even passes the
length check and dies inside `modulate_ofdm_symbol` (index-out-of-bounds on
`qam_symbols[i]`, an internal panic, not a rejection at construction). -/
theorem claim_C4_counterexample :
    (OFDMModulator.new ⟨6, 0, 2⟩).bits_per_symbol % 8 = 4 ∧
    (OFDMModulator.new ⟨6, 0, 2⟩).bits_per_symbol / 8 = 1 ∧
    (OFDMModulator.new ⟨6, 0, 2⟩).data_subcarrier_indices.length = 3 ∧
    OFDMModulator.modulate_buffer_as_symbol (OFDMModulator.new ⟨6, 0, 2⟩)
        (fun _ => List.replicate 12 0) [0] (List.replicate 12 0) =
      Except.error ModemError.internalError := by
  refine ⟨by decide, by decide, by decide, ?_⟩
  with_unfolding_all decide

/-- C4 amended: construction never rejects a configuration (the embedding of
`OFDMModulator::new` is total, as the source has no failure path); the
caller-visible payload capacity equals
`(|data_indices| * bits_per_subcarrier) / 8` under flooring integer
division, and the payload-length check of `modulate_buffer_as_symbol`
enforces exactly that capacity. -/
theorem claim_C4_capacity_formula (cfg : OFDMModulatorConfig)
    (hp : 1 ≤ cfg.pilot_subcarrier_every) :
    ((OFDMModulator.new cfg).bits_per_symbol =
        (OFDMModulator.new cfg).data_subcarrier_indices.length *
          (OFDMModulator.new cfg).bits_per_subcarrier) ∧
    (∀ (inv : List Cplx → List ℚ) (data : List ℕ) (output : List ℚ),
      (OFDMModulator.modulate_buffer_as_symbol (OFDMModulator.new cfg) inv data output =
          Except.error ModemError.invalidPayloadLength) ↔
        data.length ≠ ((OFDMModulator.new cfg).data_subcarrier_indices.length *
          (OFDMModulator.new cfg).bits_per_subcarrier) / 8) :=
  ⟨rfl, fun inv data output => modulate_invalid_iff (OFDMModulator.new cfg) inv data output⟩

/-- Witness for C4 at the 6-subcarrier configuration. -/
theorem claim_C4_witness :
    1 ≤ 2 ∧
      (OFDMModulator.new ⟨6, 0, 2⟩).bits_per_symbol =
        (OFDMModulator.new ⟨6, 0, 2⟩).data_subcarrier_indices.length *
          (OFDMModulator.new ⟨6, 0, 2⟩).bits_per_subcarrier ∧
      ((OFDMModulator.modulate_buffer_as_symbol (OFDMModulator.new ⟨6, 0, 2⟩)
          (fun _ => []) [] [] = Except.error ModemError.invalidPayloadLength) ↔
        ([] : List ℕ).length ≠ ((OFDMModulator.new ⟨6, 0, 2⟩).data_subcarrier_indices.length *
          (OFDMModulator.new ⟨6, 0, 2⟩).bits_per_subcarrier) / 8) :=
  ⟨by decide, (claim_C4_capacity_formula ⟨6, 0, 2⟩ (by decide)).1,
    (claim_C4_capacity_formula ⟨6, 0, 2⟩ (by decide)).2 (fun _ => []) [] []⟩

/-! ### Reading back the frequency-domain symbol -/

theorem placeData_some (idxs : List ℕ) (input syms : List Cplx)
    (h : idxs.length ≤ syms.length) : ∃ r, placeData input idxs syms = some r := by
  induction idxs generalizing input syms with
  | nil => exact ⟨input, by simp [placeData]⟩
  | cons i is ih =>
    cases syms with
    | nil => simp at h
    | cons s ss =>
      obtain ⟨r, hr⟩ := ih (input.set i s) ss (by simpa using h)
      exact ⟨r, by simpa [placeData] using hr⟩

theorem placeData_length (idxs : List ℕ) (input syms r : List Cplx)
    (h : placeData input idxs syms = some r) : r.length = input.length := by
  induction idxs generalizing input syms with
  | nil =>
    simp only [placeData, Option.some.injEq] at h
    rw [← h]
  | cons i is ih =>
    cases syms with
    | nil => simp [placeData] at h
    | cons s ss =>
      simp only [placeData] at h
      rw [ih (input.set i s) ss h]
      exact List.length_set input i s

theorem placeData_getElem?_not_mem (idxs : List ℕ) (input syms r : List Cplx) (j : ℕ)
    (h : placeData input idxs syms = some r) (hj : j ∉ idxs) : r[j]? = input[j]? := by
  induction idxs generalizing input syms with
  | nil =>
    simp only [placeData, Option.some.injEq] at h
    rw [← h]
  | cons i is ih =>
    cases syms with
    | nil => simp [placeData] at h
    | cons s ss =>
      simp only [placeData] at h
      have hji : i ≠ j := fun hc => hj (hc ▸ List.mem_cons_self _ _)
      rw [ih (input.set i s) ss h (fun hc => hj (List.mem_cons_of_mem _ hc))]
      exact List.getElem?_set_ne hji

theorem placeData_map_read (idxs : List ℕ) (input syms r : List Cplx)
    (hnodup : idxs.Nodup) (hbound : ∀ i ∈ idxs, i < input.length)
    (hlen : idxs.length = syms.length) (h : placeData input idxs syms = some r) :
    idxs.map (fun i => r.getD i zC) = syms := by
  induction idxs generalizing input syms with
  | nil =>
    cases syms with
    | nil => rfl
    | cons s ss => simp at hlen
  | cons i is ih =>
    cases syms with
    | nil => simp at hlen
    | cons s ss =>
      simp only [placeData] at h
      have hni : i ∉ is := (List.nodup_cons.mp hnodup).1
      have hhead : r.getD i zC = s := by
        rw [List.getD_eq_getElem?_getD,
          placeData_getElem?_not_mem is (input.set i s) ss r i h hni,
          List.getElem?_set_self (hbound i (List.mem_cons_self _ _))]
        rfl
      simp only [List.map_cons, hhead]
      congr 1
      exact ih (input.set i s) ss (List.nodup_cons.mp hnodup).2
        (fun x hx => by
          rw [List.length_set]
          exact hbound x (List.mem_cons_of_mem _ hx))
        (by simpa using hlen) h

theorem placePilots_length (idxs : List ℕ) (input : List Cplx) :
    (placePilots input idxs).length = input.length := by
  induction idxs generalizing input with
  | nil => rfl
  | cons p ps ih =>
    show (placePilots (input.set p PILOT_VALUE_TO_BE_CHANGED) ps).length = input.length
    rw [ih, List.length_set]

theorem placePilots_getElem?_not_mem (idxs : List ℕ) (input : List Cplx) (j : ℕ)
    (hj : j ∉ idxs) : (placePilots input idxs)[j]? = input[j]? := by
  induction idxs generalizing input with
  | nil => rfl
  | cons p ps ih =>
    show (placePilots (input.set p PILOT_VALUE_TO_BE_CHANGED) ps)[j]? = input[j]?
    rw [ih _ (fun hc => hj (List.mem_cons_of_mem _ hc)),
      List.getElem?_set_ne (fun hc => hj (by rw [← hc]; exact List.mem_cons_self _ _))]

theorem fftInput_spec (c : OFDMModulatorConstants) (qs : List Cplx)
    (hnodup : c.data_subcarrier_indices.Nodup)
    (hbound : ∀ i ∈ c.data_subcarrier_indices, i < c.num_subcarriers + 1)
    (hdisj : ∀ i ∈ c.data_subcarrier_indices, i ∉ c.pilot_subcarrier_indices)
    (hlen : c.data_subcarrier_indices.length = qs.length) :
    ∃ input, OFDMModulator.fftInput c qs = some input ∧
      input.length = c.num_subcarriers + 1 ∧
      c.data_subcarrier_indices.map (fun i => input.getD i zC) = qs ∧
      (∀ j, j ∉ c.data_subcarrier_indices → j ∉ c.pilot_subcarrier_indices →
        input.getD j zC = zC) := by
  obtain ⟨r, hr⟩ := placeData_some c.data_subcarrier_indices
    (List.replicate (c.num_subcarriers + 1) zC) qs (le_of_eq hlen)
  have hrlen : r.length = c.num_subcarriers + 1 := by
    rw [placeData_length _ _ _ _ hr, List.length_replicate]
  refine ⟨placePilots r c.pilot_subcarrier_indices, ?_, ?_, ?_, ?_⟩
  · unfold OFDMModulator.fftInput
    rw [hr]
    rfl
  · rw [placePilots_length, hrlen]
  · have hcongr : c.data_subcarrier_indices.map
        (fun i => (placePilots r c.pilot_subcarrier_indices).getD i zC) =
        c.data_subcarrier_indices.map (fun i => r.getD i zC) := by
      refine List.map_congr_left ?_
      intro i hi
      rw [List.getD_eq_getElem?_getD, List.getD_eq_getElem?_getD,
        placePilots_getElem?_not_mem _ _ _ (hdisj i hi)]
    rw [hcongr]
    exact placeData_map_read _ _ _ _ hnodup
      (fun i hi => by rw [List.length_replicate]; exact hbound i hi) hlen hr
  · intro j hjd hjp
    rw [List.getD_eq_getElem?_getD, placePilots_getElem?_not_mem _ _ _ hjp,
      placeData_getElem?_not_mem _ _ _ _ _ hr hjd]
    by_cases hj : j < c.num_subcarriers + 1
    · rw [List.getElem?_replicate, if_pos hj]
      rfl
    · rw [List.getElem?_replicate, if_neg hj]
      rfl

/-! ### The cyclic-prefix copy of `modulate_ofdm_symbol` -/

theorem modulate_ofdm_symbol_eq (c : OFDMModulatorConstants) (inv : List Cplx → List ℚ)
    (qs : List Cplx) (out0 : List ℚ) (input : List Cplx)
    (hin : OFDMModulator.fftInput c qs = some input)
    (hlen : (inv input).length = 2 * c.num_subcarriers)
    (hcp : c.cyclic_prefix_length ≤ 2 * c.num_subcarriers)
    (hout : out0.length = OFDMModulator.get_symbol_length c) :
    OFDMModulator.modulate_ofdm_symbol c inv qs out0 =
      some (inv input ++ (inv input).take c.cyclic_prefix_length) := by
  have h2n : OFDMModulator.get_symbol_length c - c.cyclic_prefix_length =
      2 * c.num_subcarriers := by
    unfold OFDMModulator.get_symbol_length
    omega
  have hout' : out0.length = 2 * c.num_subcarriers + c.cyclic_prefix_length := hout
  have h1 : rsSliceAssign out0 0 (2 * c.num_subcarriers) (inv input) =
      some (inv input ++ out0.drop (2 * c.num_subcarriers)) := by
    unfold rsSliceAssign
    rw [if_pos ⟨Nat.zero_le _, by omega, by omega⟩, List.take_zero, List.nil_append]
  have hlen1 : (inv input ++ out0.drop (2 * c.num_subcarriers)).length =
      2 * c.num_subcarriers + c.cyclic_prefix_length := by
    rw [List.length_append, List.length_drop, hlen]
    omega
  have h2 : rsSlice (inv input) 0 c.cyclic_prefix_length =
      some ((inv input).take c.cyclic_prefix_length) := by
    unfold rsSlice
    rw [if_pos ⟨Nat.zero_le _, by omega⟩, List.drop_zero, Nat.sub_zero]
  have h3 : rsSliceAssign (inv input ++ out0.drop (2 * c.num_subcarriers))
      (2 * c.num_subcarriers) (inv input ++ out0.drop (2 * c.num_subcarriers)).length
      ((inv input).take c.cyclic_prefix_length) =
      some (inv input ++ (inv input).take c.cyclic_prefix_length) := by
    unfold rsSliceAssign
    rw [if_pos ⟨by omega, le_refl _, by rw [List.length_take]; omega⟩,
      List.drop_length, List.append_nil, List.take_left' hlen]
  unfold OFDMModulator.modulate_ofdm_symbol
  rw [hin]
  dsimp only
  rw [h2n, h1, Option.some_bind, h2, Option.some_bind, hlen1, ← hlen1, h3]

/-- C2 (amended): for every configuration and transform, the buffer written by
`modulate_ofdm_symbol` is the `2*num_subcarriers`-sample transform output
followed by a copy of its *first* `cyclic_prefix_length` samples — the source
appends the suffix copied from the head
(`output[..sl-cp] = transform; output[sl-cp..] = transform[..cp]`), it does
not prepend a prefix copied from the tail. -/
theorem claim_C2_cyclic_copy_layout (cfg : OFDMModulatorConfig)
    (inv : List Cplx → List ℚ) (qs : List Cplx) (out0 : List ℚ) (input : List Cplx)
    (hin : OFDMModulator.fftInput (OFDMModulator.new cfg) qs = some input)
    (hlen : (inv input).length = 2 * cfg.num_subcarriers)
    (hcp : cfg.cyclic_prefix_length ≤ 2 * cfg.num_subcarriers)
    (hout : out0.length = OFDMModulator.get_symbol_length (OFDMModulator.new cfg)) :
    OFDMModulator.modulate_ofdm_symbol (OFDMModulator.new cfg) inv qs out0 =
      some (inv input ++ (inv input).take cfg.cyclic_prefix_length) ∧
    (inv input ++ (inv input).take cfg.cyclic_prefix_length).take
        (2 * cfg.num_subcarriers) = inv input ∧
    (inv input ++ (inv input).take cfg.cyclic_prefix_length).drop
        (2 * cfg.num_subcarriers) = (inv input).take cfg.cyclic_prefix_length :=
  ⟨modulate_ofdm_symbol_eq (OFDMModulator.new cfg) inv qs out0 input hin hlen hcp hout,
    List.take_left' hlen, List.drop_left' hlen⟩

/-- A 6-subcarrier test configuration with a cyclic prefix of 2 samples and a
pilot every 4 bins: data bins `[1,2,3,5]`, pilot bin `[4]`, capacity 2 bytes,
symbol length 14. -/
def cexCfg : OFDMModulatorConfig := ⟨6, 2, 4⟩

/-- The constants derived from `cexCfg`. -/
def cexC : OFDMModulatorConstants := OFDMModulator.new cexCfg

/-- A concrete instance of the external inverse-transform collaborator for
`cexCfg` (spec §6): an exact invertible packing of the 7 half-spectrum bins
(whose edge bins carry no imaginary part, per the real-transform convention)
into `2 * 6 = 12` real samples, standing in for `realfft`'s inverse FFT. -/
def cexPack (X : List Cplx) : List ℚ :=
  [(X.getD 0 zC).re,
   (X.getD 1 zC).re, (X.getD 1 zC).im,
   (X.getD 2 zC).re, (X.getD 2 zC).im,
   (X.getD 3 zC).re, (X.getD 3 zC).im,
   (X.getD 4 zC).re, (X.getD 4 zC).im,
   (X.getD 5 zC).re, (X.getD 5 zC).im,
   (X.getD 6 zC).re]

/-- The forward transform matching `cexPack`: unpack 12 real samples into the
7 half-spectrum bins. -/
def cexUnpack (r : List ℚ) : List Cplx :=
  [⟨r.getD 0 0, 0⟩,
   ⟨r.getD 1 0, r.getD 2 0⟩,
   ⟨r.getD 3 0, r.getD 4 0⟩,
   ⟨r.getD 5 0, r.getD 6 0⟩,
   ⟨r.getD 7 0, r.getD 8 0⟩,
   ⟨r.getD 9 0, r.getD 10 0⟩,
   ⟨r.getD 11 0, 0⟩]

/-- The frequency-domain symbol `fftInput` builds for payload `[0x01, 0x23]`
under `cexC`: nibbles 0,1,2,3 on data bins 1,2,3,5, the pilot on bin 4, zero
on bins 0 and 6. -/
def cexFreqIn : List Cplx := [⟨0, 0⟩, ⟨1, 1⟩, ⟨1, 3⟩, ⟨3, 1⟩, ⟨1, 0⟩, ⟨3, 3⟩, ⟨0, 0⟩]

/-- The 14-sample buffer `modulate_buffer_as_symbol` produces for payload
`[0x01, 0x23]` under `cexC` with `cexPack` as inverse transform: the 12
transform samples followed by a copy of their first two samples. -/
def cexBuf : List ℚ := [0, 1, 1, 1, 3, 3, 1, 1, 0, 3, 3, 0, 0, 1]

/-- Witness for C2 at the concrete configuration `cexCfg`. -/
theorem claim_C2_witness :
    OFDMModulator.fftInput cexC (QAMModem.modulate [1, 35]) = some cexFreqIn ∧
      (cexPack cexFreqIn).length = 2 * 6 ∧
      (2 : ℕ) ≤ 2 * 6 ∧
      (List.replicate 14 (0 : ℚ)).length = OFDMModulator.get_symbol_length cexC ∧
      OFDMModulator.modulate_ofdm_symbol cexC cexPack (QAMModem.modulate [1, 35])
          (List.replicate 14 0) =
        some (cexPack cexFreqIn ++ (cexPack cexFreqIn).take 2) :=
  ⟨by with_unfolding_all decide, by decide, by decide, by decide,
    (claim_C2_cyclic_copy_layout cexCfg cexPack (QAMModem.modulate [1, 35])
      (List.replicate 14 0) cexFreqIn (by with_unfolding_all decide) (by decide)
      (by decide) (by decide)).1⟩

/-- Counterexample for C2 as stated: under `cexCfg` with transform `cexPack`
and payload `[0x01, 0x23]`, the transform output is
`[0,1,1,1,3,3,1,1,0,3,3,0]`; the first `cyclic_prefix_length = 2` samples of
the modulated buffer are `[0, 1]` — the *head* of the transform output — and
not its last two samples `[3, 0]`: the prefix is not prepended from the tail,
a copy of the head is appended at the end. -/
theorem claim_C2_counterexample :
    OFDMModulator.fftInput cexC (QAMModem.modulate [1, 35]) = some cexFreqIn ∧
      OFDMModulator.modulate_buffer_as_symbol cexC cexPack [1, 35]
          (List.replicate 14 0) = Except.ok cexBuf ∧
      cexBuf.take 2 ≠ (cexPack cexFreqIn).drop ((cexPack cexFreqIn).length - 2) := by
  refine ⟨?_, ?_, ?_⟩ <;> with_unfolding_all decide

/-! ### The OFDM round trip -/

theorem qam_modulate_length (data : List ℕ) :
    (QAMModem.modulate data).length = 2 * data.length := by
  rw [qam_modulate_bind]
  induction data with
  | nil => rfl
  | cons b bs ih =>
    simp only [List.flatMap_cons, List.length_append, List.length_cons, ih]
    simp only [List.length_nil]
    omega

theorem data_nodup (cfg : OFDMModulatorConfig) :
    (OFDMModulator.new cfg).data_subcarrier_indices.Nodup :=
  (List.Pairwise.filter _ (List.pairwise_lt_range' 1 (cfg.num_subcarriers - 1))).imp
    Nat.ne_of_lt

/-- C1 (amended): with a zero-length cyclic prefix, for every valid
configuration, every payload of exact capacity length, and every
inverse/forward transform pair that is exact on half-spectrum symbols
(real-valued edge bins), demodulating the modulated symbol returns the
original payload. For `cyclic_prefix_length > 0` the round trip fails (see
the counterexample): the source modulator appends a copy of the transform
output's head, while the demodulator of spec §4.4 strips the leading
`cyclic_prefix_length` samples, so the forward transform sees a rotated
sample block. -/
theorem claim_C1_round_trip (cfg : OFDMModulatorConfig)
    (inv : List Cplx → List ℚ) (fwd : List ℚ → List Cplx)
    (data : List ℕ) (out0 : List ℚ)
    (hn : 4 ≤ cfg.num_subcarriers)
    (hp : 2 ≤ cfg.pilot_subcarrier_every)
    (hcp : cfg.cyclic_prefix_length = 0)
    (hdiv : (OFDMModulator.new cfg).bits_per_symbol % 8 = 0)
    (hdata : data.length = (OFDMModulator.new cfg).bits_per_symbol / 8)
    (hbytes : ∀ b ∈ data, b < 256)
    (hout : out0.length = OFDMModulator.get_symbol_length (OFDMModulator.new cfg))
    (hinvlen : ∀ X : List Cplx, X.length = cfg.num_subcarriers + 1 →
      (inv X).length = 2 * cfg.num_subcarriers)
    (htrans : ∀ X : List Cplx, X.length = cfg.num_subcarriers + 1 →
      (X.getD 0 zC).im = 0 → (X.getD cfg.num_subcarriers zC).im = 0 →
      fwd (inv X) = X) :
    (OFDMModulator.modulate_buffer_as_symbol (OFDMModulator.new cfg) inv data out0 >>=
      fun buf => OFDMDemodulator.demodulate (OFDMModulator.new cfg) fwd buf) =
      Except.ok data := by
  have hbits : (OFDMModulator.new cfg).bits_per_symbol =
      (OFDMModulator.new cfg).data_subcarrier_indices.length * 4 := rfl
  have hnum : (OFDMModulator.new cfg).data_subcarrier_indices.length = 2 * data.length := by
    omega
  have hqslen : (OFDMModulator.new cfg).data_subcarrier_indices.length =
      (QAMModem.modulate data).length := by
    rw [qam_modulate_length]
    exact hnum
  have hbound : ∀ i ∈ (OFDMModulator.new cfg).data_subcarrier_indices,
      i < (OFDMModulator.new cfg).num_subcarriers + 1 := by
    intro i hi
    have := (mem_data_iff cfg i).mp hi
    show i < cfg.num_subcarriers + 1
    omega
  have hdisj : ∀ i ∈ (OFDMModulator.new cfg).data_subcarrier_indices,
      i ∉ (OFDMModulator.new cfg).pilot_subcarrier_indices := by
    intro i hi hip
    exact ((mem_data_iff cfg i).mp hi).2.2 ((mem_pilot_iff cfg i).mp hip).2.2
  obtain ⟨input, hin, hinlen, hread, hzero⟩ :=
    fftInput_spec (OFDMModulator.new cfg) (QAMModem.modulate data)
      (data_nodup cfg) hbound hdisj hqslen
  have hzero0 : input.getD 0 zC = zC :=
    hzero 0 (fun h => by have := (mem_data_iff cfg 0).mp h; omega)
      (fun h => by have := (mem_pilot_iff cfg 0).mp h; omega)
  have hzeroN : input.getD cfg.num_subcarriers zC = zC :=
    hzero cfg.num_subcarriers
      (fun h => by have := (mem_data_iff cfg cfg.num_subcarriers).mp h; omega)
      (fun h => by have := (mem_pilot_iff cfg cfg.num_subcarriers).mp h; omega)
  have hmod : OFDMModulator.modulate_ofdm_symbol (OFDMModulator.new cfg) inv
      (QAMModem.modulate data) out0 =
      some (inv input ++ (inv input).take
        (OFDMModulator.new cfg).cyclic_prefix_length) :=
    modulate_ofdm_symbol_eq (OFDMModulator.new cfg) inv (QAMModem.modulate data) out0
      input hin (hinvlen input hinlen)
      (by show cfg.cyclic_prefix_length ≤ 2 * cfg.num_subcarriers; omega) hout
  have hmod' : OFDMModulator.modulate_ofdm_symbol (OFDMModulator.new cfg) inv
      (QAMModem.modulate data) out0 = some (inv input) := by
    rw [hmod, show (OFDMModulator.new cfg).cyclic_prefix_length = 0 from hcp,
      List.take_zero, List.append_nil]
  have hbufeq : OFDMModulator.modulate_buffer_as_symbol (OFDMModulator.new cfg) inv
      data out0 = Except.ok (inv input) := by
    unfold OFDMModulator.modulate_buffer_as_symbol
    rw [if_neg (fun hc => hc hdata), hmod']
  have hfwd : fwd (inv input) = input :=
    htrans input hinlen (by rw [hzero0]; rfl) (by rw [hzeroN]; rfl)
  have hdemod : OFDMDemodulator.demodulate (OFDMModulator.new cfg) fwd (inv input) =
      Except.ok data := by
    unfold OFDMDemodulator.demodulate
    dsimp only
    rw [show (OFDMModulator.new cfg).cyclic_prefix_length = 0 from hcp,
      List.drop_zero, hfwd, hread]
    exact qam_roundtrip data hbytes
  rw [hbufeq]
  exact hdemod

theorem cexPack_length (X : List Cplx) : (cexPack X).length = 12 := rfl

theorem cexUnpack_cexPack (X : List Cplx) (hX : X.length = 7)
    (h0 : (X.getD 0 zC).im = 0) (h6 : (X.getD 6 zC).im = 0) :
    cexUnpack (cexPack X) = X := by
  rcases X with _ | ⟨a, X⟩
  · simp at hX
  rcases X with _ | ⟨b, X⟩
  · simp at hX
  rcases X with _ | ⟨c, X⟩
  · simp at hX
  rcases X with _ | ⟨d, X⟩
  · simp at hX
  rcases X with _ | ⟨e, X⟩
  · simp at hX
  rcases X with _ | ⟨f, X⟩
  · simp at hX
  rcases X with _ | ⟨g, X⟩
  · simp at hX
  rcases X with _ | ⟨x, X⟩
  · obtain ⟨are, aim⟩ := a
    obtain ⟨gre, gim⟩ := g
    have haim : aim = 0 := h0
    have hgim : gim = 0 := h6
    subst haim
    subst hgim
    rfl
  · simp at hX

/-- Witness for C1 at the 6-subcarrier, zero-prefix configuration with the
exact transform pair `cexPack`/`cexUnpack` and payload `[0x01, 0x23]`. -/
theorem claim_C1_witness :
    (OFDMModulator.modulate_buffer_as_symbol (OFDMModulator.new ⟨6, 0, 4⟩) cexPack
        [1, 35] (List.replicate 12 0) >>=
      fun buf => OFDMDemodulator.demodulate (OFDMModulator.new ⟨6, 0, 4⟩) cexUnpack buf) =
      Except.ok [1, 35] :=
  claim_C1_round_trip ⟨6, 0, 4⟩ cexPack cexUnpack [1, 35] (List.replicate 12 0)
    (by decide) (by decide) rfl (by decide) (by decide) (by decide) (by decide)
    (fun X _ => rfl)
    (fun X hX h0 h6 => cexUnpack_cexPack X hX h0 h6)

/-- Counterexample for C1 as stated ("for every valid configuration"): under
`cexCfg` (cyclic prefix 2) with the exact transform pair
`cexPack`/`cexUnpack`, payload `[0x01, 0x23]` comes back as `[0x12, 0x00]` —
not a floating-point-tolerance deviation but a structural corruption: the
modulator appends a head-copy suffix while the spec's demodulator strips the
first two samples, so the forward transform sees a rotated block. -/
theorem claim_C1_counterexample :
    cexUnpack (cexPack cexFreqIn) = cexFreqIn ∧
      (OFDMModulator.modulate_buffer_as_symbol cexC cexPack [1, 35]
          (List.replicate 14 0) >>=
        fun buf => OFDMDemodulator.demodulate cexC cexUnpack buf) = Except.ok [18, 0] ∧
      ([18, 0] : List ℕ) ≠ [1, 35] := by
  refine ⟨?_, ?_, ?_⟩ <;> with_unfolding_all decide
